import Mathlib

/-!
Shallow embedding of the Gadgetron storage manager core (storage.py):
the metadata model (Blob / Leaf / Entry tables), the content-addressed
blob store on disk, the path-indexed node operations (get, patch,
get-or-create), and the garbage-collection sweep.

Timestamps are modelled as natural numbers, byte streams as lists of
naturals, and the blob-bytes directory as an association list from blob
id to file contents.  Database commits are the durability points: every
handler is a pure function from the committed state to the committed
state, and a handler that raises before its commit leaves the committed
state unchanged (the SQLAlchemy session is rolled back at request
teardown).
-/

namespace Storage

/-- Table `blobs` (storage.py, class DB.Blob): primary key `blob_id`,
plus a server-defaulted `created` timestamp. -/
structure Blob where
  blob_id : String
  created : Nat
deriving DecidableEq

/-- Table `leaves` (storage.py, class DB.Leaf): autoincrement surrogate
`id`, unique `path`, server-defaulted `created` and `updated`
timestamps, nullable `timeout` and `type`. -/
structure Leaf where
  id : Nat
  path : String
  created : Nat
  updated : Nat
  timeout : Option Nat
  type : Option String
deriving DecidableEq

/-- Table `entries` (storage.py, class DB.Entry): a blob reference owned
by one leaf, ordered by `rank`.  The unused autoincrement primary key
`entry_id` is not read by any modelled code path and is omitted. -/
structure Entry where
  blob_id : String
  leaf_id : Nat
  rank : Nat
deriving DecidableEq

/-- The committed store: the three metadata tables, the blob-bytes
directory (`DATA_FOLDER`, file `{blob_id}.bin` keyed here by blob id),
and the autoincrement counter backing `DB.Leaf.id`. -/
structure State where
  leaves : List Leaf
  entries : List Entry
  blobs : List Blob
  files : List (String × List Nat)
  nextLeafId : Nat
deriving DecidableEq

def emptyState : State := ⟨[], [], [], [], 1⟩

/-- Comparison used by the relationship `order_by='Entry.rank'`. -/
def entryLe (a b : Entry) : Prop := a.rank ≤ b.rank

instance : DecidableRel entryLe := fun a b => Nat.decLe a.rank b.rank

instance : IsTotal Entry entryLe := ⟨fun a b => Nat.le_total a.rank b.rank⟩

instance : IsTrans Entry entryLe := ⟨fun _ _ _ h1 h2 => Nat.le_trans h1 h2⟩

/-- The relationship `DB.Leaf.contents`: the entries whose `leaf_id` is
the given leaf id, ordered by `rank`. -/
def contents (s : State) (lid : Nat) : List Entry :=
  List.insertionSort entryLe (s.entries.filter (fun e => e.leaf_id == lid))

/-- `Node._get_or_create` (storage.py lines 152-162): look the path up
with `.first()`; on a hit refresh `updated`, otherwise add a new Leaf
whose `created` and `updated` columns take the server default `now` and
whose `timeout` and `type` columns are left NULL (the constructor is
called as `DB.Leaf(path=path)` only). -/
def Node.getOrCreate (s : State) (path : String) (now : Nat) : State × Leaf :=
  match s.leaves.find? (fun l => l.path == path) with
  | some leaf =>
    ({ s with
        leaves := s.leaves.map (fun l => if l.path == path then { l with updated := now } else l) },
      { leaf with updated := now })
  | none =>
    let leaf : Leaf :=
      { id := s.nextLeafId, path := path, created := now, updated := now,
        timeout := none, type := none }
    ({ s with leaves := s.leaves ++ [leaf], nextLeafId := s.nextLeafId + 1 }, leaf)

/-- Rank renumbering performed by `ordering_list('rank')`: after the
collection is mutated, each entry's `rank` is its position. -/
def reindexFrom (i : Nat) : List Entry → List Entry
  | [] => []
  | e :: rest => { e with rank := i } :: reindexFrom (i + 1) rest

/-- The local function `push` in `Node.patch` (storage.py lines
135-137): `for blob in reversed(blobs): leaf.contents.insert(0, ...)`,
after which `ordering_list` renumbers the ranks to positions. -/
def pushEntries (blobs : List String) (lid : Nat) (cur : List Entry) : List Entry :=
  reindexFrom 0
    (blobs.reverse.foldl (fun acc b => { blob_id := b, leaf_id := lid, rank := 0 } :: acc) cur)

/-- The `TypeError` raised when `operations.get(...)` returns `None`
and is then called. -/
inductive PatchError where
  | badOperation
deriving DecidableEq

/-- `Node.patch` (storage.py lines 129-150): get or create the leaf for
`cls.name + '/' + path`, look the requested operation up in the table
`{'push': push}`, apply it and commit.  Any operation other than
`'push'` finds `None` in the table and raises before the commit. -/
def Node.patch (s : State) (name rest : String) (op : Option String) (args : List String)
    (now : Nat) : Except PatchError (State × Leaf) :=
  let path := name ++ "/" ++ rest
  let res := Node.getOrCreate s path now
  if op = some "push" then
    Except.ok
      ({ res.1 with
          entries := res.1.entries.filter (fun e => e.leaf_id != res.2.id) ++
            pushEntries args res.2.id (contents res.1 res.2.id) }, res.2)
  else Except.error PatchError.badOperation

/-- The request boundary around `Node.patch`: an uncaught exception
means the commit never ran, so the committed state is the pre-request
state (the session is discarded at teardown). -/
def Node.handlePatch (s : State) (name rest : String) (op : Option String) (args : List String)
    (now : Nat) : State × Except PatchError Leaf :=
  match Node.patch s name rest op args now with
  | Except.ok (s2, leaf) => (s2, Except.ok leaf)
  | Except.error e => (s, Except.error e)

/-- Chunk size of the upload loop in `BlobList.put`: `1024**2`. -/
def CHUNK : Nat := 1024 ^ 2

/-- The upload loop of `BlobList.put` (storage.py lines 97-102): read
the request stream in `CHUNK`-byte reads and write every read (the
final empty read included) to the file, until a read comes back
empty.  The file receives the concatenation of the reads. -/
def readAll (stream : List Nat) : List Nat :=
  if h : stream = [] then []
  else stream.take CHUNK ++ readAll (stream.drop CHUNK)
termination_by stream.length
decreasing_by
  have hc : 0 < CHUNK := by norm_num [CHUNK]
  have hs : 0 < stream.length := List.length_pos.mpr h
  simp only [List.length_drop]
  omega

/-- `open(path, 'wb')` followed by writes: the file under key `k` is
created or truncated, then holds exactly `v`. -/
def fsWrite (files : List (String × List Nat)) (k : String) (v : List Nat) :
    List (String × List Nat) :=
  files.filter (fun kv => kv.1 != k) ++ [(k, v)]

/-- `os.unlink` on the file of blob `k`. -/
def fsRemove (files : List (String × List Nat)) (k : String) : List (String × List Nat) :=
  files.filter (fun kv => kv.1 != k)

/-- `BlobList.put` (storage.py lines 91-109): stream the request body
into `DATA_FOLDER/{blob_id}.bin`, then insert the Blob row and commit.
The freshly generated `uuid4` is passed in as `blob_id`. -/
def BlobList.put (s : State) (blob_id : String) (stream : List Nat) (now : Nat) : State :=
  { s with
      files := fsWrite s.files blob_id (readAll stream),
      blobs := s.blobs ++ [{ blob_id := blob_id, created := now }] }

/-- `BlobData.get` (storage.py lines 81-86): serve the bytes of
`DATA_FOLDER/{blob_id}.bin`, or a NotFound miss. -/
def BlobData.get (s : State) (blob_id : String) : Option (List Nat) :=
  (s.files.find? (fun kv => kv.1 == blob_id)).map (fun kv => kv.2)

/-- SQLite default LIKE case folding: ASCII letters compare
case-insensitively, every other character compares exactly. -/
def asciiFold (c : Char) : Char :=
  if 'A' ≤ c && c ≤ 'Z' then Char.ofNat (c.toNat + 32) else c

/-- All suffixes of a list, the empty suffix included. -/
def suffixes : List Char → List (List Char)
  | [] => [[]]
  | c :: s => (c :: s) :: suffixes s

/-- SQL LIKE matching as evaluated by SQLite with its default options:
`%` matches any character sequence, `_` matches any single character,
and plain characters match up to ASCII case folding. -/
def likeMatch : List Char → List Char → Bool
  | [], s => s.isEmpty
  | p :: ps, s =>
    if p == '%' then (suffixes s).any (fun t => likeMatch ps t)
    else
      match s with
      | [] => false
      | c :: s2 => (p == '_' || asciiFold p == asciiFold c) && likeMatch ps s2

/-- Comparison used by `order_by(DB.Leaf.path)`. -/
def leafPathLe (a b : Leaf) : Prop := a.path ≤ b.path

instance : DecidableRel leafPathLe := fun a b =>
  inferInstanceAs (Decidable (a.path ≤ b.path))

instance : IsTotal Leaf leafPathLe := ⟨fun a b => le_total a.path b.path⟩

instance : IsTrans Leaf leafPathLe := ⟨fun _ _ _ h1 h2 => le_trans h1 h2⟩

/-- `get_children` (storage.py lines 68-69): the leaves whose path
matches the LIKE pattern `path + "/%"`, ordered by path. -/
def get_children (s : State) (path : String) : List Leaf :=
  List.insertionSort leafPathLe
    (s.leaves.filter (fun l => likeMatch (path ++ "/%").toList l.path.toList))

/-- What `Node.get` returns: either the marshalled leaf with its
ordered contents, or the list of child paths. -/
inductive GetResult where
  | leaf : Leaf → List Entry → GetResult
  | children : List String → GetResult
deriving DecidableEq

/-- `Node.get` (storage.py lines 114-127): exact lookup of
`cls.name + '/' + path`; on a hit refresh `updated` and commit and
return the leaf, on a miss return the child paths, touching nothing. -/
def Node.get (s : State) (name rest : String) (now : Nat) : State × GetResult :=
  let path := name ++ "/" ++ rest
  match s.leaves.find? (fun l => l.path == path) with
  | some leaf =>
    ({ s with
        leaves := s.leaves.map (fun l => if l.path == path then { l with updated := now } else l) },
      GetResult.leaf { leaf with updated := now } (contents s leaf.id))
  | none => (s, GetResult.children ((get_children s path).map (fun l => l.path)))

/-- The class attribute `Sessions.timeout` (storage.py line 173).  It is
defined on the resource class but never passed to `DB.Leaf`. -/
def sessionsTimeout : Nat := 3600

/-- The GC deletion filter as written at storage.py line 192:
`(DB.Leaf.updated + DB.Leaf.timeout) > now`.  A NULL `timeout` makes
the SQL comparison NULL, which selects nothing, so such leaves are
never deleted. -/
def gcLeafDeleted (now : Nat) (l : Leaf) : Bool :=
  match l.timeout with
  | none => false
  | some t => decide (l.updated + t > now)

/-- The loop over `blobs_to_be_deleted.all()` with `delete_blob`
(storage.py lines 207-211): each iteration calls `os.unlink` with no
exception handling, so the first failing unlink (`fails` says which
blob ids fail) propagates, abandoning the remaining iterations and
skipping `gevent.spawn_later`; the second component records whether the
loop ran to completion and the resweep was scheduled. -/
def deleteBlobFiles (fails : String → Bool) :
    List Blob → List (String × List Nat) → List (String × List Nat) × Bool
  | [], files => (files, true)
  | b :: rest, files =>
    if fails b.blob_id then (files, false)
    else deleteBlobFiles fails rest (fsRemove files b.blob_id)

/-- `garbage_collect` (storage.py lines 190-213), one sweep:
delete the leaves matching the filter at line 192; delete the entries
whose `leaf_id` is no longer among the remaining leaves; delete the
blob rows whose `blob_id` is referenced by no remaining entry, and
commit; then iterate `blobs_to_be_deleted.all()` deleting backing
files.  `blobs_to_be_deleted` is a query object, and `.all()` re-runs
the SELECT after those very rows were deleted and committed, so the
loop iterates over the remaining blobs that are unreferenced — of which
there are none.  Finally reschedule via `gevent.spawn_later` (the
boolean result), which an uncaught unlink error would skip. -/
def garbage_collect (fails : String → Bool) (s : State) (now : Nat) : State × Bool :=
  let leaves2 := s.leaves.filter (fun l => !gcLeafDeleted now l)
  let entries2 := s.entries.filter (fun e => leaves2.any (fun l => l.id == e.leaf_id))
  let refd := entries2.map (fun e => e.blob_id)
  let blobs2 := s.blobs.filter (fun b => refd.contains b.blob_id)
  let toDelete := blobs2.filter (fun b => !refd.contains b.blob_id)
  let res := deleteBlobFiles fails toDelete s.files
  ({ s with leaves := leaves2, entries := entries2, blobs := blobs2, files := res.1 }, res.2)

/-- Scenario B, computed through the patch handler: push `[b2]`, then
push `[b1]`, and read off the blob ids of the leaf's ordered contents. -/
def scenarioB : List String :=
  match Node.patch emptyState "sessions" "s" (some "push") ["b2"] 0 with
  | Except.ok (s1, _) =>
    match Node.patch s1 "sessions" "s" (some "push") ["b1"] 0 with
    | Except.ok (s2, l2) => (contents s2 l2.id).map (fun e => e.blob_id)
    | Except.error _ => []
  | Except.error _ => []

/-- The rank-contiguity invariant: every live leaf's ordered contents
carry ranks exactly `0, 1, ..., n-1` in list order. -/
def RankInv (s : State) : Prop :=
  ∀ l ∈ s.leaves,
    (contents s l.id).map (fun e => e.rank) = List.range (contents s l.id).length

instance (s : State) : Decidable (RankInv s) :=
  inferInstanceAs (Decidable (∀ l ∈ s.leaves,
    (contents s l.id).map (fun e => e.rank) = List.range (contents s l.id).length))

/-- Concrete store used to instantiate the rank-contiguity theorem. -/
def c7State : State :=
  { emptyState with
      leaves := [⟨1, "sessions/a", 0, 0, none, none⟩],
      entries := [⟨"b0", 1, 0⟩, ⟨"b1", 1, 1⟩] }

/-- Case folding applied to a whole string. -/
def foldStr (s : String) : List Char := s.toList.map asciiFold

/-- Spec-side comparator for the amended C8: `q` is a descendant of `p`
when the case-folded `q` starts with the case-folded `p` plus the
separator. -/
def descendantCI (p q : String) : Bool := (foldStr (p ++ "/")).isPrefixOf (foldStr q)

/-- Store with one leaf whose path matches `sessions/a_c/%` as a LIKE
pattern without being a descendant of `sessions/a_c`. -/
def c8State : State :=
  { emptyState with leaves := [⟨1, "sessions/abc/x", 0, 0, none, none⟩] }

/-- Store used to instantiate the amended C8 theorem (Scenario C). -/
def c8WState : State :=
  { emptyState with leaves := [⟨1, "sessions/42/noise", 3, 3, none, none⟩] }

/-! ### Helper lemmas -/

/-- The upload loop writes back exactly the stream it reads. -/
theorem readAll_eq (stream : List Nat) : readAll stream = stream := by
  rw [readAll]
  split
  · simp [*]
  · rw [readAll_eq (stream.drop CHUNK), List.take_append_drop]
termination_by stream.length
decreasing_by
  have hc : 0 < CHUNK := by norm_num [CHUNK]
  have hs : 0 < stream.length := List.length_pos.mpr (by assumption)
  simp only [List.length_drop]
  omega

/-- Looking a key up right after writing it finds the new contents. -/
theorem find?_fsWrite (fs : List (String × List Nat)) (k : String) (v : List Nat) :
    (fsWrite fs k v).find? (fun kv => kv.1 == k) = some (k, v) := by
  simp [fsWrite, List.find?_append]

/-- The re-executed `blobs_to_be_deleted` query selects nothing: every
blob it would match was just deleted. -/
theorem toDelete_nil (blobs : List Blob) (refd : List String) :
    (blobs.filter (fun b => refd.contains b.blob_id)).filter
      (fun b => !refd.contains b.blob_id) = [] := by
  simp only [List.filter_filter, Bool.not_and_self]
  exact List.filter_false blobs

/-- One full sweep, solved: the metadata tables are filtered as the
three DELETE statements dictate, the file directory is untouched, and
the resweep is always scheduled, because the file-deletion loop re-runs
its query after the commit and finds no rows. -/
theorem garbage_collect_run (fails : String → Bool) (s : State) (now : Nat) :
    garbage_collect fails s now =
      ({ s with
          leaves := s.leaves.filter (fun l => !gcLeafDeleted now l),
          entries := s.entries.filter (fun e =>
            (s.leaves.filter (fun l => !gcLeafDeleted now l)).any (fun l => l.id == e.leaf_id)),
          blobs := s.blobs.filter (fun b =>
            ((s.entries.filter (fun e =>
                (s.leaves.filter (fun l => !gcLeafDeleted now l)).any
                  (fun l => l.id == e.leaf_id))).map
              (fun e => e.blob_id)).contains b.blob_id) }, true) := by
  simp only [garbage_collect, toDelete_nil, deleteBlobFiles]

/-! ### Claim theorems -/

/-- C9: `PutBlob` on a stream followed by `GetBlob` on the id it was
stored under returns exactly the stored bytes, byte for byte, for
arbitrary content including the empty stream; in particular the chunked
upload loop preserves the stream. -/
theorem putBlob_getBlob_roundtrip :
    (∀ stream : List Nat, readAll stream = stream) ∧
    ∀ (s : State) (blob_id : String) (stream : List Nat) (now : Nat),
      BlobData.get (BlobList.put s blob_id stream now) blob_id = some stream := by
  refine ⟨readAll_eq, fun s blob_id stream now => ?_⟩
  show ((fsWrite s.files blob_id (readAll stream)).find? (fun kv => kv.1 == blob_id)).map
      (fun kv => kv.2) = some stream
  rw [find?_fsWrite, readAll_eq]
  rfl

/-- C1 fails on the code: the sweep at `garbage_collect` never removes
any backing file, because `blobs_to_be_deleted.all()` re-runs the SELECT
after those rows were deleted and committed.  First conjunct: the file
directory survives every sweep unchanged.  Remaining conjuncts evaluate
the sweep on a store holding one unreferenced blob: its metadata row is
deleted, yet its backing file is still present afterwards. -/
theorem gc_leaves_blob_file_behind :
    (∀ (fails : String → Bool) (s : State) (now : Nat),
        (garbage_collect fails s now).1.files = s.files) ∧
    (garbage_collect (fun _ => false)
        { emptyState with blobs := [⟨"b1", 0⟩], files := [("b1", [7])] } 100).1.blobs = [] ∧
    (garbage_collect (fun _ => false)
        { emptyState with blobs := [⟨"b1", 0⟩], files := [("b1", [7])] } 100).1.files
      = [("b1", [7])] := by
  exact ⟨fun fails s now => by rw [garbage_collect_run], by decide, by decide⟩

/-- C2 fails on the code: the deletion filter at storage.py line 192 is
`(updated + timeout) > now`, the inverse of the specified
`now - updated > timeout`.  Sweeping at time 7200 a store holding a
leaf idle since 0 with timeout 3600 (expired, per the claim to be
deleted) and a leaf updated at 7000 with timeout 3600 (fresh, per the
claim to be kept), the sweep keeps exactly the expired leaf. -/
theorem gc_expiry_filter_inverted :
    (garbage_collect (fun _ => false)
        { emptyState with
            leaves := [⟨1, "sessions/a", 0, 0, some 3600, none⟩,
                       ⟨2, "sessions/b", 7000, 7000, some 3600, none⟩] } 7200).1.leaves
      = [⟨1, "sessions/a", 0, 0, some 3600, none⟩] ∧
    7200 - (0 : Nat) > 3600 ∧
    ¬ (7200 - (7000 : Nat) > 3600) := by
  exact ⟨by decide, by decide, by decide⟩

/-- C5 fails on the code: `delete_blob` calls `os.unlink` with no
exception handling, so a failing unlink propagates out of the loop,
abandoning the remaining files and skipping `gevent.spawn_later`.
First conjunct: on a two-blob worklist whose first unlink fails, the
second blob's file is not processed and no resweep is scheduled.
Second conjunct: in the sweep as actually wired, the worklist is always
empty (see C1), so no unlink error can in fact occur and the resweep is
always scheduled. -/
theorem unlink_failure_aborts_sweep :
    deleteBlobFiles (fun b => b == "b1") [⟨"b1", 0⟩, ⟨"b2", 0⟩] [("b1", [1]), ("b2", [2])]
      = ([("b1", [1]), ("b2", [2])], false) ∧
    ∀ (fails : String → Bool) (s : State) (now : Nat),
      (garbage_collect fails s now).2 = true := by
  exact ⟨by decide, fun fails s now => by rw [garbage_collect_run]⟩

/-- C3 fails on the code: the first write to a fresh path does create a
Leaf with `created = updated = now` and an empty entry list, but its
`timeout` is NULL — `Node._get_or_create` constructs `DB.Leaf(path=path)`
only, and the per-namespace default (`Sessions.timeout = 3600`) is never
passed to the row. -/
theorem first_write_creates_leaf_without_timeout :
    (Node.getOrCreate emptyState "sessions/42/noiseninja" 5).2.created = 5 ∧
    (Node.getOrCreate emptyState "sessions/42/noiseninja" 5).2.updated = 5 ∧
    contents (Node.getOrCreate emptyState "sessions/42/noiseninja" 5).1
        (Node.getOrCreate emptyState "sessions/42/noiseninja" 5).2.id = [] ∧
    (Node.getOrCreate emptyState "sessions/42/noiseninja" 5).2.timeout = none ∧
    sessionsTimeout = 3600 ∧
    (Node.getOrCreate emptyState "sessions/42/noiseninja" 5).2.timeout
      ≠ some sessionsTimeout := by
  exact ⟨rfl, rfl, by decide, rfl, rfl, by decide⟩

/-! ### Push and patch lemmas -/

theorem foldl_reversed_insert (blobs : List String) (lid : Nat) (cur : List Entry) :
    blobs.reverse.foldl
        (fun acc b => ({ blob_id := b, leaf_id := lid, rank := 0 } : Entry) :: acc) cur
      = blobs.map (fun b => ({ blob_id := b, leaf_id := lid, rank := 0 } : Entry)) ++ cur := by
  induction blobs with
  | nil => rfl
  | cons b bs ih => simp [List.reverse_cons, List.foldl_append, ih]

theorem reindexFrom_map_blob (i : Nat) (l : List Entry) :
    (reindexFrom i l).map (fun e => e.blob_id) = l.map (fun e => e.blob_id) := by
  induction l generalizing i with
  | nil => rfl
  | cons e l ih => simp [reindexFrom, ih]

theorem reindexFrom_length (i : Nat) (l : List Entry) :
    (reindexFrom i l).length = l.length := by
  induction l generalizing i with
  | nil => rfl
  | cons e l ih => simp [reindexFrom, ih]

theorem reindexFrom_map_rank (i : Nat) (l : List Entry) :
    (reindexFrom i l).map (fun e => e.rank) = List.range' i l.length := by
  induction l generalizing i with
  | nil => rfl
  | cons e l ih => simp [reindexFrom, ih, List.range']

theorem reindexFrom_leaf_id (i : Nat) (l : List Entry) (lid : Nat)
    (h : ∀ e ∈ l, e.leaf_id = lid) : ∀ e ∈ reindexFrom i l, e.leaf_id = lid := by
  induction l generalizing i with
  | nil => intro e he; cases he
  | cons a l ih =>
    intro e he
    rw [reindexFrom] at he
    rcases List.mem_cons.mp he with h1 | h1
    · rw [h1]; exact h a (List.mem_cons_self a l)
    · exact ih (i + 1) (fun e2 he2 => h e2 (List.mem_cons_of_mem a he2)) e h1

theorem reindexFrom_rank_ge (i : Nat) (l : List Entry) :
    ∀ e ∈ reindexFrom i l, i ≤ e.rank := by
  induction l generalizing i with
  | nil => intro e he; cases he
  | cons a l ih =>
    intro e he
    rw [reindexFrom] at he
    rcases List.mem_cons.mp he with h1 | h1
    · rw [h1]
    · exact Nat.le_of_succ_le (ih (i + 1) e h1)

theorem reindexFrom_sorted (i : Nat) (l : List Entry) :
    List.Sorted entryLe (reindexFrom i l) := by
  induction l generalizing i with
  | nil => exact List.sorted_nil
  | cons a l ih =>
    rw [reindexFrom, List.sorted_cons]
    refine ⟨fun b hb => ?_, ih (i + 1)⟩
    have hge := reindexFrom_rank_ge (i + 1) l b hb
    show ({ a with rank := i } : Entry).rank ≤ b.rank
    simp only
    omega

/-- Filtering the patched entries table back down to the mutated leaf
returns exactly the freshly pushed collection. -/
theorem filter_patched_entries (rest new : List Entry) (lid : Nat)
    (hnew : ∀ e ∈ new, e.leaf_id = lid) :
    (rest.filter (fun e => e.leaf_id != lid) ++ new).filter (fun e => e.leaf_id == lid)
      = new := by
  rw [List.filter_append]
  have h1 : (rest.filter (fun e => e.leaf_id != lid)).filter (fun e => e.leaf_id == lid)
      = [] := by
    simp only [List.filter_filter, bne, Bool.and_not_self]
    exact List.filter_false rest
  have h2 : new.filter (fun e => e.leaf_id == lid) = new :=
    List.filter_eq_self.mpr (fun e he => by simp [hnew e he])
  rw [h1, h2, List.nil_append]

theorem contents_entries_eq (s t : State) (lid : Nat) (h : s.entries = t.entries) :
    contents s lid = contents t lid := by
  unfold contents
  rw [h]

theorem contents_mem_leaf_id (s : State) (lid : Nat) :
    ∀ e ∈ contents s lid, e.leaf_id = lid := by
  intro e he
  unfold contents at he
  have h2 := List.mem_filter.mp ((List.mem_insertionSort entryLe).mp he)
  simpa using h2.2

theorem pushEntries_leaf_id (args : List String) (lid : Nat) (cur : List Entry)
    (hcur : ∀ e ∈ cur, e.leaf_id = lid) :
    ∀ e ∈ pushEntries args lid cur, e.leaf_id = lid := by
  unfold pushEntries
  apply reindexFrom_leaf_id
  rw [foldl_reversed_insert]
  intro e he
  rcases List.mem_append.mp he with h1 | h1
  · rcases List.mem_map.mp h1 with ⟨b, _, hb⟩
    rw [← hb]
  · exact hcur e h1

theorem pushEntries_sorted (args : List String) (lid : Nat) (cur : List Entry) :
    List.Sorted entryLe (pushEntries args lid cur) :=
  reindexFrom_sorted 0 _

theorem pushEntries_map_blob (args : List String) (lid : Nat) (cur : List Entry) :
    (pushEntries args lid cur).map (fun e => e.blob_id)
      = args ++ cur.map (fun e => e.blob_id) := by
  unfold pushEntries
  rw [reindexFrom_map_blob, foldl_reversed_insert, List.map_append, List.map_map]
  show List.map (fun b => b) args ++ cur.map (fun e => e.blob_id)
      = args ++ cur.map (fun e => e.blob_id)
  rw [List.map_id']

theorem pushEntries_map_rank (args : List String) (lid : Nat) (cur : List Entry) :
    (pushEntries args lid cur).map (fun e => e.rank)
      = List.range (pushEntries args lid cur).length := by
  unfold pushEntries
  rw [reindexFrom_map_rank, reindexFrom_length, List.range_eq_range']

theorem getOrCreate_entries (s : State) (p : String) (now : Nat) :
    (Node.getOrCreate s p now).1.entries = s.entries := by
  unfold Node.getOrCreate
  split <;> rfl

/-- Any operation other than `'push'` finds `None` in the operations
table and raises. -/
theorem patch_not_push (s : State) (name rest : String) (op : Option String)
    (args : List String) (now : Nat) (h : op ≠ some "push") :
    Node.patch s name rest op args now = Except.error PatchError.badOperation := by
  unfold Node.patch
  rw [if_neg h]

/-- A push request succeeds, and the mutated leaf's ordered contents are
the pushed collection built from its previous contents. -/
theorem patch_push_ok (s : State) (name rest : String) (args : List String) (now : Nat) :
    ∃ s2 leaf, Node.patch s name rest (some "push") args now = Except.ok (s2, leaf) ∧
      contents s2 leaf.id = pushEntries args leaf.id (contents s leaf.id) := by
  have hent := getOrCreate_entries s (name ++ "/" ++ rest) now
  have hcur := contents_mem_leaf_id (Node.getOrCreate s (name ++ "/" ++ rest) now).1
    (Node.getOrCreate s (name ++ "/" ++ rest) now).2.id
  refine ⟨_, _, rfl, ?_⟩
  show List.insertionSort entryLe
      (((Node.getOrCreate s (name ++ "/" ++ rest) now).1.entries.filter
          (fun e => e.leaf_id != (Node.getOrCreate s (name ++ "/" ++ rest) now).2.id) ++
        pushEntries args (Node.getOrCreate s (name ++ "/" ++ rest) now).2.id
          (contents (Node.getOrCreate s (name ++ "/" ++ rest) now).1
            (Node.getOrCreate s (name ++ "/" ++ rest) now).2.id)).filter
        (fun e => e.leaf_id == (Node.getOrCreate s (name ++ "/" ++ rest) now).2.id))
      = pushEntries args (Node.getOrCreate s (name ++ "/" ++ rest) now).2.id
          (contents s (Node.getOrCreate s (name ++ "/" ++ rest) now).2.id)
  rw [filter_patched_entries _ _ _ (pushEntries_leaf_id _ _ _ hcur),
    (pushEntries_sorted _ _ _).insertionSort_eq,
    contents_entries_eq _ s _ hent]

/-- C4 as stated fails on the code: of the three advertised operations
only `push` exists in the handler's operations table; an `append` or
`pop` request raises instead of mutating the list. -/
theorem mutateLeaf_append_pop_unsupported :
    Node.patch emptyState "sessions" "42/noise" (some "append") ["b1"] 0
      = Except.error PatchError.badOperation ∧
    Node.patch emptyState "sessions" "42/noise" (some "pop") [] 0
      = Except.error PatchError.badOperation :=
  ⟨rfl, rfl⟩

/-- C4 amended: `MutateLeaf` supports only the `push` operation, which
adds the blobs in the given order to the head of the list and returns
the resulting Leaf (creating it on first write); `append` and `pop` are
not implemented, and any other operation fails with an error. -/
theorem mutateLeaf_only_push (s : State) (name rest : String) (op : Option String)
    (args : List String) (now : Nat) (h : op ≠ some "push") :
    Node.patch s name rest op args now = Except.error PatchError.badOperation ∧
    ∃ s2 leaf, Node.patch s name rest (some "push") args now = Except.ok (s2, leaf) ∧
      (contents s2 leaf.id).map (fun e => e.blob_id)
        = args ++ (contents s leaf.id).map (fun e => e.blob_id) := by
  refine ⟨patch_not_push s name rest op args now h, ?_⟩
  obtain ⟨s2, leaf, hok, hc⟩ := patch_push_ok s name rest args now
  exact ⟨s2, leaf, hok, by rw [hc, pushEntries_map_blob]⟩

theorem mutateLeaf_only_push_witness :
    (some "noop" ≠ some "push") ∧
    (Node.patch emptyState "sessions" "w4" (some "noop") ["b"] 3
        = Except.error PatchError.badOperation ∧
      ∃ s2 leaf,
        Node.patch emptyState "sessions" "w4" (some "push") ["b"] 3 = Except.ok (s2, leaf) ∧
        (contents s2 leaf.id).map (fun e => e.blob_id)
          = ["b"] ++ (contents emptyState leaf.id).map (fun e => e.blob_id)) :=
  ⟨by decide, mutateLeaf_only_push emptyState "sessions" "w4" (some "noop") ["b"] 3 (by decide)⟩

/-- C6 confirmed: a push prepends the given blobs preserving their given
order — the new contents read `blobs ++ previous` — and pushing `[b2]`
then `[b1]` yields list order `[b1, b2]`. -/
theorem push_prepends_in_given_order :
    (∀ (args : List String) (lid : Nat) (cur : List Entry),
        (pushEntries args lid cur).map (fun e => e.blob_id)
          = args ++ cur.map (fun e => e.blob_id)) ∧
    scenarioB = ["b1", "b2"] :=
  ⟨pushEntries_map_blob, by decide⟩

/-- C10 confirmed: a patch request whose operation is anything other
than `'push'` — `append`, `pop`, an unknown name, or a missing field —
raises before the commit, so the committed store is unchanged. -/
theorem patch_error_state_unchanged (s : State) (name rest : String) (op : Option String)
    (args : List String) (now : Nat) (h : op ≠ some "push") :
    Node.handlePatch s name rest op args now = (s, Except.error PatchError.badOperation) := by
  unfold Node.handlePatch
  rw [patch_not_push s name rest op args now h]

theorem patch_error_state_unchanged_witness :
    (some "append" ≠ some "push") ∧
    Node.handlePatch { emptyState with leaves := [⟨1, "sessions/w", 0, 0, none, none⟩] }
        "sessions" "w" (some "append") ["b9"] 9
      = ({ emptyState with leaves := [⟨1, "sessions/w", 0, 0, none, none⟩] },
          Except.error PatchError.badOperation) :=
  ⟨by decide,
    patch_error_state_unchanged { emptyState with leaves := [⟨1, "sessions/w", 0, 0, none, none⟩] }
      "sessions" "w" (some "append") ["b9"] 9 (by decide)⟩

/-! ### Rank contiguity -/

/-- A patch leaves the entry rows of every other leaf untouched. -/
theorem filter_patched_entries_other (rest new : List Entry) (tid lid : Nat)
    (hne : lid ≠ tid) (hnew : ∀ e ∈ new, e.leaf_id = tid) :
    (rest.filter (fun e => e.leaf_id != tid) ++ new).filter (fun e => e.leaf_id == lid)
      = rest.filter (fun e => e.leaf_id == lid) := by
  rw [List.filter_append]
  have h1 : new.filter (fun e => e.leaf_id == lid) = [] :=
    List.filter_eq_nil_iff.mpr (fun e he => by simp [hnew e he, Ne.symm hne])
  have h2 : (rest.filter (fun e => e.leaf_id != tid)).filter (fun e => e.leaf_id == lid)
      = rest.filter (fun e => e.leaf_id == lid) := by
    rw [List.filter_filter]
    apply List.filter_congr
    intro x _
    by_cases hxl : x.leaf_id = lid
    · simp [hxl, hne]
    · simp [hxl]
  rw [h1, h2, List.append_nil]

/-- Every leaf in the post-get-or-create table either is the returned
leaf (by id) or descends from a pre-existing leaf with the same id. -/
theorem getOrCreate_leaves_ids (s : State) (p : String) (now : Nat) :
    ∀ l ∈ (Node.getOrCreate s p now).1.leaves,
      l.id = (Node.getOrCreate s p now).2.id ∨ ∃ l0 ∈ s.leaves, l0.id = l.id := by
  unfold Node.getOrCreate
  split
  · intro l hl
    right
    rcases List.mem_map.mp hl with ⟨l0, hl0, hupd⟩
    refine ⟨l0, hl0, ?_⟩
    by_cases hp : l0.path = p
    · rw [← hupd]; simp [hp]
    · rw [← hupd]; simp [hp]
  · intro l hl
    rcases List.mem_append.mp hl with h1 | h1
    · right; exact ⟨l, h1, rfl⟩
    · left
      rw [List.mem_singleton.mp h1]

/-- A sweep leaves the contents of every surviving leaf untouched. -/
theorem gc_contents_live (s : State) (now : Nat) (fails : String → Bool) (l : Leaf)
    (hl : l ∈ s.leaves.filter (fun l2 => !gcLeafDeleted now l2)) :
    contents (garbage_collect fails s now).1 l.id = contents s l.id := by
  rw [garbage_collect_run]
  unfold contents
  congr 1
  show (s.entries.filter (fun e =>
      (s.leaves.filter (fun l2 => !gcLeafDeleted now l2)).any
        (fun l2 => l2.id == e.leaf_id))).filter (fun e => e.leaf_id == l.id)
    = s.entries.filter (fun e => e.leaf_id == l.id)
  rw [List.filter_filter]
  apply List.filter_congr
  intro e _
  by_cases hel : e.leaf_id = l.id
  · have halive : (s.leaves.filter (fun l2 => !gcLeafDeleted now l2)).any
        (fun l2 => l2.id == e.leaf_id) = true :=
      List.any_eq_true.mpr ⟨l, hl, by simp [hel]⟩
    rw [hel] at halive
    rw [hel]
    simp only [beq_self_eq_true, Bool.true_and]
    exact halive
  · simp [hel]

/-- A successful patch preserves rank contiguity: the mutated leaf is
renumbered from scratch, every other leaf's rows are untouched. -/
theorem rankInv_patch (s : State) (hinv : RankInv s) (name rest : String) (op : Option String)
    (args : List String) (now : Nat) (s2 : State) (leaf : Leaf)
    (hok : Node.patch s name rest op args now = Except.ok (s2, leaf)) : RankInv s2 := by
  by_cases hop : op = some "push"
  case neg =>
    rw [patch_not_push s name rest op args now hop] at hok
    exact absurd hok (by simp)
  subst hop
  obtain ⟨s2b, leafb, hokb, hc⟩ := patch_push_ok s name rest args now
  rw [hokb] at hok
  have hpair : s2b = s2 ∧ leafb = leaf := by
    have := (Except.ok.injEq _ _).mp hok
    exact ⟨congrArg Prod.fst this, congrArg Prod.snd this⟩
  obtain ⟨rfl, rfl⟩ := hpair
  have hs2 : s2b = { (Node.getOrCreate s (name ++ "/" ++ rest) now).1 with
      entries := (Node.getOrCreate s (name ++ "/" ++ rest) now).1.entries.filter
          (fun e => e.leaf_id != (Node.getOrCreate s (name ++ "/" ++ rest) now).2.id) ++
        pushEntries args (Node.getOrCreate s (name ++ "/" ++ rest) now).2.id
          (contents (Node.getOrCreate s (name ++ "/" ++ rest) now).1
            (Node.getOrCreate s (name ++ "/" ++ rest) now).2.id) } := by
    have := hokb
    unfold Node.patch at this
    rw [if_pos rfl] at this
    have h2 := (Except.ok.injEq _ _).mp this
    exact (congrArg Prod.fst h2).symm
  have hleaf : leafb = (Node.getOrCreate s (name ++ "/" ++ rest) now).2 := by
    have := hokb
    unfold Node.patch at this
    rw [if_pos rfl] at this
    exact (congrArg Prod.snd ((Except.ok.injEq _ _).mp this)).symm
  intro l hl
  by_cases hid : l.id = leafb.id
  · rw [hid, hc, pushEntries_map_rank]
  · have hid2 : ¬ l.id = (Node.getOrCreate s (name ++ "/" ++ rest) now).2.id := by
      rw [← hleaf]; exact hid
    have hother : contents s2b l.id = contents s l.id := by
      rw [hs2]
      unfold contents
      congr 1
      show ((Node.getOrCreate s (name ++ "/" ++ rest) now).1.entries.filter
            (fun e => e.leaf_id != (Node.getOrCreate s (name ++ "/" ++ rest) now).2.id) ++
          pushEntries args (Node.getOrCreate s (name ++ "/" ++ rest) now).2.id
            (contents (Node.getOrCreate s (name ++ "/" ++ rest) now).1
              (Node.getOrCreate s (name ++ "/" ++ rest) now).2.id)).filter
          (fun e => e.leaf_id == l.id)
        = s.entries.filter (fun e => e.leaf_id == l.id)
      rw [filter_patched_entries_other _ _ _ _ hid2
        (pushEntries_leaf_id _ _ _ (contents_mem_leaf_id _ _)),
        getOrCreate_entries s (name ++ "/" ++ rest) now]
    rw [hother]
    have hmem : l ∈ (Node.getOrCreate s (name ++ "/" ++ rest) now).1.leaves := by
      have hsl : s2b.leaves = (Node.getOrCreate s (name ++ "/" ++ rest) now).1.leaves := by
        rw [hs2]
      rw [← hsl]
      exact hl
    rcases getOrCreate_leaves_ids s (name ++ "/" ++ rest) now l hmem with h1 | ⟨l0, hl0, hid0⟩
    · exact absurd h1 hid2
    · rw [← hid0]
      exact hinv l0 hl0

/-- A sweep preserves rank contiguity: surviving leaves keep their rows
and ranks verbatim. -/
theorem rankInv_gc (s : State) (hinv : RankInv s) (fails : String → Bool) (now : Nat) :
    RankInv (garbage_collect fails s now).1 := by
  intro l hl
  have hleaves : (garbage_collect fails s now).1.leaves
      = s.leaves.filter (fun l2 => !gcLeafDeleted now l2) := by
    rw [garbage_collect_run]
  rw [hleaves] at hl
  rw [gc_contents_live s now fails l hl]
  exact hinv l (List.mem_filter.mp hl).1

/-- C7 confirmed: starting from any store satisfying rank contiguity,
the invariant holds of the empty store, is preserved by every completed
patch (push on an existing leaf, or leaf creation followed by the
push), and is preserved by a garbage-collection sweep. -/
theorem rank_contiguity (s : State) (hinv : RankInv s) :
    RankInv emptyState ∧
    (∀ (name rest : String) (op : Option String) (args : List String) (now : Nat)
        (s2 : State) (leaf : Leaf),
        Node.patch s name rest op args now = Except.ok (s2, leaf) → RankInv s2) ∧
    ∀ (fails : String → Bool) (now : Nat), RankInv (garbage_collect fails s now).1 := by
  refine ⟨fun l hl => absurd hl (by simp [emptyState]), ?_, fun fails now => rankInv_gc s hinv fails now⟩
  exact fun name rest op args now s2 leaf hok => rankInv_patch s hinv name rest op args now s2 leaf hok

theorem rank_contiguity_witness :
    RankInv c7State ∧
    (RankInv emptyState ∧
      (∀ (name rest : String) (op : Option String) (args : List String) (now : Nat)
          (s2 : State) (leaf : Leaf),
          Node.patch c7State name rest op args now = Except.ok (s2, leaf) → RankInv s2) ∧
      ∀ (fails : String → Bool) (now : Nat), RankInv (garbage_collect fails c7State now).1) :=
  ⟨by decide, rank_contiguity c7State (by decide)⟩

/-! ### Children listing -/

/-- A lone `%` matches every string. -/
theorem likeMatch_star (s : List Char) : likeMatch ['%'] s = true := by
  induction s with
  | nil => rfl
  | cons c s ih =>
    show (likeMatch [] (c :: s) || (suffixes s).any (fun t => likeMatch [] t)) = true
    have ih2 : (suffixes s).any (fun t => likeMatch [] t) = true := ih
    rw [ih2, Bool.or_true]

/-- A wildcard-free pattern followed by `%` matches exactly the strings
extending the pattern, up to case folding. -/
theorem likeMatch_plain_star (p : List Char) (hp : ∀ c ∈ p, c ≠ '%' ∧ c ≠ '_') :
    ∀ s : List Char,
      likeMatch (p ++ ['%']) s = (p.map asciiFold).isPrefixOf (s.map asciiFold) := by
  induction p with
  | nil =>
    intro s
    rw [List.nil_append, likeMatch_star]
    cases s <;> rfl
  | cons c p ih =>
    intro s
    have hc := hp c (List.mem_cons_self c p)
    have hps : ∀ c2 ∈ p, c2 ≠ '%' ∧ c2 ≠ '_' :=
      fun c2 h2 => hp c2 (List.mem_cons_of_mem c h2)
    have hpct : (c == '%') = false := by simp [hc.1]
    have hund : (c == '_') = false := by simp [hc.2]
    cases s with
    | nil =>
      show likeMatch (c :: (p ++ ['%'])) [] = false
      rw [likeMatch, hpct]
      rfl
    | cons d s2 =>
      show likeMatch (c :: (p ++ ['%'])) (d :: s2)
        = ((asciiFold c == asciiFold d) && (p.map asciiFold).isPrefixOf (s2.map asciiFold))
      rw [likeMatch, hpct]
      show ((c == '_' || asciiFold c == asciiFold d) && likeMatch (p ++ ['%']) s2) = _
      rw [hund, Bool.false_or, ih hps s2]

/-- The LIKE filter of `get_children`, on a wildcard-free prefix, is
exactly the case-insensitive-descendant test. -/
theorem likePattern_eq_descendant (p q : String) (hp : ∀ c ∈ p.toList, c ≠ '%' ∧ c ≠ '_') :
    likeMatch (p ++ "/%").toList q.toList = descendantCI p q := by
  have hlist : (p ++ "/%").toList = (p ++ "/").toList ++ ['%'] := by
    show (p ++ "/%").data = (p ++ "/").data ++ ['%']
    rw [String.data_append, String.data_append]
    show p.data ++ ['/', '%'] = p.data ++ ['/'] ++ ['%']
    rw [List.append_assoc]
    rfl
  rw [hlist, likeMatch_plain_star]
  · rfl
  · intro c hc
    have : (p ++ "/").toList = p.toList ++ ['/'] := by
      show (p ++ "/").data = p.data ++ ['/']
      rw [String.data_append]
    rw [this] at hc
    rcases List.mem_append.mp hc with h1 | h1
    · exact hp c h1
    · rw [List.mem_singleton.mp h1]
      exact ⟨by decide, by decide⟩

/-- `get_children` on a wildcard-free prefix: the returned paths are
sorted, and a path is listed exactly when a live leaf carries it and it
is a case-insensitive descendant of the prefix. -/
theorem get_children_spec (s : State) (p : String)
    (hp : ∀ c ∈ p.toList, c ≠ '%' ∧ c ≠ '_') :
    ((get_children s p).map (fun l => l.path)).Sorted (· ≤ ·) ∧
    ∀ q : String, (q ∈ (get_children s p).map (fun l => l.path))
      ↔ ∃ l ∈ s.leaves, l.path = q ∧ descendantCI p q = true := by
  constructor
  · exact List.pairwise_map.mpr
      (List.sorted_insertionSort leafPathLe
        (s.leaves.filter (fun l => likeMatch (p ++ "/%").toList l.path.toList)))
  · intro q
    constructor
    · intro hq
      rcases List.mem_map.mp hq with ⟨l, hl, rfl⟩
      have hl3 := List.mem_filter.mp ((List.mem_insertionSort leafPathLe).mp hl)
      refine ⟨l, hl3.1, rfl, ?_⟩
      rw [← likePattern_eq_descendant p l.path hp]
      exact hl3.2
    · rintro ⟨l, hl, rfl, hdesc⟩
      apply List.mem_map.mpr
      refine ⟨l, ?_, rfl⟩
      apply (List.mem_insertionSort leafPathLe).mpr
      apply List.mem_filter.mpr
      exact ⟨hl, by rw [likePattern_eq_descendant p l.path hp]; exact hdesc⟩

/-- C8 as stated fails on the code: `get_children` feeds the request
path into a LIKE pattern unescaped, so the `_` wildcard makes the
listing for `sessions/a_c` — a path with no exact leaf and no
descendants at all — return `sessions/abc/x`, which does not begin with
`sessions/a_c` plus the separator. -/
theorem children_wildcard_cex :
    (Node.get c8State "sessions" "a_c" 0).2 = GetResult.children ["sessions/abc/x"] ∧
    (∀ l ∈ c8State.leaves, l.path ≠ "sessions/a_c") ∧
    ("sessions/a_c/".toList.isPrefixOf "sessions/abc/x".toList) = false := by
  exact ⟨by decide, by decide, by decide⟩

/-- C8 amended: for a prefix free of the LIKE wildcards `%` and `_`
whose exact lookup misses, the listing returns — without touching the
store — the paths of the currently-live leaves that are descendants of
the prefix under SQLite's ASCII-case-insensitive comparison, sorted
lexicographically, and the empty list when there are none. -/
theorem resolve_children_spec (s : State) (name rest : String) (now : Nat)
    (hplain : ∀ c ∈ (name ++ "/" ++ rest).toList, c ≠ '%' ∧ c ≠ '_')
    (hmiss : ∀ l ∈ s.leaves, l.path ≠ name ++ "/" ++ rest) :
    (Node.get s name rest now).1 = s ∧
    (Node.get s name rest now).2
      = GetResult.children
          ((get_children s (name ++ "/" ++ rest)).map (fun l => l.path)) ∧
    ((get_children s (name ++ "/" ++ rest)).map (fun l => l.path)).Sorted (· ≤ ·) ∧
    ∀ q : String, (q ∈ (get_children s (name ++ "/" ++ rest)).map (fun l => l.path))
      ↔ ∃ l ∈ s.leaves, l.path = q ∧ descendantCI (name ++ "/" ++ rest) q = true := by
  have hfind : s.leaves.find? (fun l => l.path == (name ++ "/" ++ rest)) = none :=
    List.find?_eq_none.mpr (fun l hl => by simp [hmiss l hl])
  have hget := get_children_spec s (name ++ "/" ++ rest) hplain
  refine ⟨?_, ?_, hget.1, hget.2⟩
  · simp only [Node.get]
    rw [hfind]
  · simp only [Node.get]
    rw [hfind]

theorem resolve_children_spec_witness :
    (∀ c ∈ ("sessions" ++ "/" ++ "42").toList, c ≠ '%' ∧ c ≠ '_') ∧
    (∀ l ∈ c8WState.leaves, l.path ≠ "sessions" ++ "/" ++ "42") ∧
    ((Node.get c8WState "sessions" "42" 7).1 = c8WState ∧
      (Node.get c8WState "sessions" "42" 7).2
        = GetResult.children
            ((get_children c8WState ("sessions" ++ "/" ++ "42")).map (fun l => l.path)) ∧
      ((get_children c8WState ("sessions" ++ "/" ++ "42")).map (fun l => l.path)).Sorted
        (· ≤ ·) ∧
      ∀ q : String,
        (q ∈ (get_children c8WState ("sessions" ++ "/" ++ "42")).map (fun l => l.path))
        ↔ ∃ l ∈ c8WState.leaves, l.path = q
            ∧ descendantCI ("sessions" ++ "/" ++ "42") q = true) :=
  ⟨by decide, by decide,
    resolve_children_spec c8WState "sessions" "42" 7 (by decide) (by decide)⟩

end Storage
